import Mathlib

/-!
Verification development for the zen-fs/archives repository: a shallow
embedding of the ISO 9660 / Rock Ridge decoder and the ZIP central-directory
decoder, together with theorems about the directory projection, path
resolution, case folding, symlink construction, SUSP parsing and the
end-of-central-directory scan.

Strings are modelled as lists of Unicode code points (`List Nat`), byte
buffers as `List Nat` of byte values, and JavaScript `Map` / `Set` objects as
association lists / lists with the exact insert-or-replace and
add-if-absent semantics of the runtime.
-/

/-- POSIX-flavored error kinds used by the file systems. -/
inductive Err where
  | ENOENT | EISDIR | ENOTDIR | ENODATA | EAGAIN | EINVAL | IoError | EPERM
deriving DecidableEq, Repr

/-- Result of a file-system operation: a returned value or a thrown error. -/
inductive FsRes (A : Type) where
  | ok (val : A)
  | error (err : Err)
deriving DecidableEq, Repr

/-- Lookup in a JavaScript `Map` modelled as an association list:
the value of the first (unique) matching key. -/
def jsGet {K : Type} {V : Type} [DecidableEq K] : List (K × V) → K → Option V
  | [], _ => none
  | p :: rest, k => if p.1 = k then some p.2 else jsGet rest k

/-- Model of `Map.prototype.set`: replace the value of an existing key in place,
otherwise append the new binding at the end (insertion order preserved). -/
def jsSet {K : Type} {V : Type} [DecidableEq K] : List (K × V) → K → V → List (K × V)
  | [], k, v => [(k, v)]
  | p :: rest, k, v => if p.1 = k then (k, v) :: rest else p :: jsSet rest k v

/-- Model of `Map.prototype.has`. -/
def hasKey {K : Type} {V : Type} [DecidableEq K] (m : List (K × V)) (k : K) : Bool :=
  (jsGet m k).isSome

/-- The keys of a JavaScript `Map`, in insertion order. -/
def mapKeys {K : Type} {V : Type} (m : List (K × V)) : List K :=
  m.map Prod.fst

/-- Model of `Set.prototype.add`: append if not already present. -/
def jsAdd {α : Type} [DecidableEq α] (s : List α) (a : α) : List α :=
  if a ∈ s then s else s ++ [a]

/-- Bytes of a buffer at an index (`Uint8Array` indexing; out-of-range reads
behave as zero for the arithmetic the decoders perform on them). -/
def byteAt (data : List Nat) (i : Nat) : Nat :=
  data.getD i 0

/-- A little-endian 16-bit field. -/
def leU16 (data : List Nat) (i : Nat) : Nat :=
  byteAt data i + byteAt data (i + 1) * 256

/-- A little-endian 32-bit field. -/
def leU32 (data : List Nat) (i : Nat) : Nat :=
  byteAt data i + byteAt data (i + 1) * 256 + byteAt data (i + 2) * 65536 +
    byteAt data (i + 3) * 16777216

/-- A little-endian 64-bit field. -/
def leU64 (data : List Nat) (i : Nat) : Nat :=
  leU32 data i + leU32 data (i + 4) * 4294967296

/-- A contiguous slice of `len` bytes starting at `i`. -/
def byteSlice (data : List Nat) (i len : Nat) : List Nat :=
  (data.drop i).take len

/-- Model of `TypedArray.prototype.subarray(offset, end)` followed by a copy. -/
def subarray (bs : List Nat) (o e : Nat) : List Nat :=
  (bs.take e).drop o

/-- The ASCII fragment of `String.prototype.toLowerCase`, on code points. -/
def jsToLower (c : Nat) : Nat :=
  if 65 ≤ c ∧ c ≤ 90 then c + 32 else c

/-- The ASCII fragment of `String.prototype.toUpperCase`, on code points. -/
def jsToUpper (c : Nat) : Nat :=
  if 97 ≤ c ∧ c ≤ 122 then c - 32 else c

/-- Code points of a Lean string literal, for readable concrete inputs. -/
def str (s : String) : List Nat :=
  s.data.map Char.toNat

/-- The Unicode replacement character, emitted by lenient decoders. -/
def replacementChar : Nat := 0xFFFD

/-- Decoding with `TextDecoder('utf-8')` (lenient): well-formed sequences
decode to their code point, malformed bytes to U+FFFD. -/
def utf8Decode : List Nat → List Nat
  | [] => []
  | b :: rest =>
    if b < 128 then b :: utf8Decode rest
    else if 194 ≤ b ∧ b ≤ 223 then
      match rest with
      | [] => [replacementChar]
      | b2 :: rest2 =>
        if 128 ≤ b2 ∧ b2 ≤ 191 then ((b - 192) * 64 + (b2 - 128)) :: utf8Decode rest2
        else replacementChar :: utf8Decode (b2 :: rest2)
    else if 224 ≤ b ∧ b ≤ 239 then
      match rest with
      | [] => [replacementChar]
      | [_] => [replacementChar, replacementChar]
      | b2 :: b3 :: rest3 =>
        if 128 ≤ b2 ∧ b2 ≤ 191 ∧ 128 ≤ b3 ∧ b3 ≤ 191 then
          ((b - 224) * 4096 + (b2 - 128) * 64 + (b3 - 128)) :: utf8Decode rest3
        else replacementChar :: utf8Decode (b2 :: b3 :: rest3)
    else if 240 ≤ b ∧ b ≤ 244 then
      match rest with
      | [] => [replacementChar]
      | [_] => [replacementChar, replacementChar]
      | [_, _] => [replacementChar, replacementChar, replacementChar]
      | b2 :: b3 :: b4 :: rest4 =>
        if 128 ≤ b2 ∧ b2 ≤ 191 ∧ 128 ≤ b3 ∧ b3 ≤ 191 ∧ 128 ≤ b4 ∧ b4 ≤ 191 then
          ((b - 240) * 262144 + (b2 - 128) * 4096 + (b3 - 128) * 64 + (b4 - 128))
            :: utf8Decode rest4
        else replacementChar :: utf8Decode (b2 :: b3 :: b4 :: rest4)
    else replacementChar :: utf8Decode rest

/-- Decoding with `TextDecoder('utf-16be')` (lenient): big-endian code units,
surrogate pairs combined, unpaired surrogates and odd tails to U+FFFD. -/
def utf16beDecode : List Nat → List Nat
  | [] => []
  | [_] => [replacementChar]
  | [b0, b1] =>
    let u := b0 * 256 + b1
    if 0xD800 ≤ u ∧ u ≤ 0xDFFF then [replacementChar] else [u]
  | [b0, b1, _] =>
    let u := b0 * 256 + b1
    if 0xD800 ≤ u ∧ u ≤ 0xDBFF then [replacementChar, replacementChar]
    else if 0xDC00 ≤ u ∧ u ≤ 0xDFFF then [replacementChar, replacementChar]
    else [u, replacementChar]
  | b0 :: b1 :: b2 :: b3 :: rest =>
    let u := b0 * 256 + b1
    if 0xD800 ≤ u ∧ u ≤ 0xDBFF then
      let v := b2 * 256 + b3
      if 0xDC00 ≤ v ∧ v ≤ 0xDFFF then
        (0x10000 + (u - 0xD800) * 1024 + (v - 0xDC00)) :: utf16beDecode rest
      else replacementChar :: utf16beDecode (b2 :: b3 :: rest)
    else if 0xDC00 ≤ u ∧ u ≤ 0xDFFF then replacementChar :: utf16beDecode (b2 :: b3 :: rest)
    else u :: utf16beDecode (b2 :: b3 :: rest)

/-- Text encodings selected by the ISO layer. -/
inductive TextEncoding where
  | utf8
  | utf16be
deriving DecidableEq, Repr

/-- Pick the decoder for a given encoding. -/
def decodeWith : TextEncoding → List Nat → List Nat
  | .utf8, bs => utf8Decode bs
  | .utf16be, bs => utf16beDecode bs

/-- Encoding chosen by `DirectoryRecord._decode`: the record kind string is
compared against the correctly spelled name, so Joliet records decode as
UTF-16BE (`new TextDecoder(this._kind == 'Joliet' ? 'utf-16be' : 'utf-8')`). -/
def recordStringEncoding (kind : String) : TextEncoding :=
  if kind = "Joliet" then .utf16be else .utf8

/-- Encoding chosen by `PrimaryVolumeDescriptor._decode`: the descriptor name
is compared against the misspelled literal
(`new TextDecoder(this.name == 'Joilet' ? 'utf-16be' : 'utf-8')`), so the
branch can never fire for the name 'Joliet' the mount code passes. -/
def pvdStringEncoding (name : String) : TextEncoding :=
  if name = "Joilet" then .utf16be else .utf8

/-- Decoding of a directory-record string: decode, then lower-case
(`this._decoder!.decode(data).toLowerCase()`). -/
def recDecode (kind : String) (bs : List Nat) : List Nat :=
  (decodeWith (recordStringEncoding kind) bs).map jsToLower

/-- Decoding of a volume-descriptor string: decode with the typo-selected
encoding, then lower-case. -/
def pvdDecode (name : String) (bs : List Nat) : List Nat :=
  (decodeWith (pvdStringEncoding name) bs).map jsToLower

/-- A volume descriptor header as seen by the mount loop: its type byte and
the first three bytes of the escape-sequence field. -/
structure VolumeDescInfo where
  type : Nat
  esc0 : Nat
  esc1 : Nat
  esc2 : Nat
deriving DecidableEq, Repr

/-- The Joliet escape-sequence validation
(`escapeSequence[0] !== 37 || escapeSequence[1] !== 47 || ![64, 67, 69].includes(...)`). -/
def validJolietEscape (v : VolumeDescInfo) : Bool :=
  v.esc0 = 37 && v.esc1 = 47 && (v.esc2 = 64 || v.esc2 = 67 || v.esc2 = 69)

/-- Loop body of the volume-descriptor scan in the IsoFS constructor, with
the running candidate identified by the name it is constructed with. -/
def selectVDGo : List VolumeDescInfo → Option String → FsRes String
  | [], cand =>
    match cand with
    | some n => .ok n
    | none => .error .IoError
  | v :: rest, cand =>
    if v.type = 1 then
      selectVDGo rest (if cand = some "Joliet" then cand else some "ISO9660")
    else if v.type = 2 then
      if validJolietEscape v then selectVDGo rest (some "Joliet") else .error .IoError
    else if v.type = 255 then
      match cand with
      | some n => .ok n
      | none => .error .IoError
    else selectVDGo rest cand

/-- Volume-descriptor selection: primary descriptors are remembered unless a
supplementary (Joliet) one was already chosen, supplementary descriptors are
validated and promoted, a set terminator stops the scan, and a missing
candidate is an `EIO` failure (constructor `IoError`). -/
def selectVolumeDescriptor (descs : List VolumeDescInfo) : FsRes String :=
  selectVDGo descs none

/-- A parsed SUSP system-use entry. Signatures carry the fields the
file system reads; entry kinds whose fields no code path consumes are kept
as `other` with their signature bytes. -/
inductive SUEntry where
  | SP (magic1 magic2 skip : Nat)
  | ST
  | ER (idLen : Nat) (idBytes : List Nat)
  | RR
  | CE (extent offset size : Nat)
  | PX (mode : Nat)
  | SL (flags : Nat) (components : List (Nat × List Nat))
  | NM (flags : Nat) (nameBytes : List Nat)
  | CL (childDirectoryLba : Nat)
  | RE
  | other (b0 b1 : Nat)
deriving DecidableEq, Repr

/-- Component records of an SL entry (`SLEntry.componentRecords`): starting at
entry-relative offset 5, each record is flags, componentLength, content;
the loop runs while `i < this.length`. The fuel equals the remaining
byte count, which bounds the iterations since each record is 2+len bytes. -/
def parseSLComponents (d : List Nat) (off : Nat) : Nat → Nat → Nat → List (Nat × List Nat)
  | 0, _, _ => []
  | fuel + 1, i, len =>
    if i < len then
      let flags := byteAt d (off + i)
      let compLen := byteAt d (off + i + 1)
      (flags, byteSlice d (off + i + 2) compLen) :: parseSLComponents d off fuel (i + 2 + compLen) len
    else []

/-- Parse the typed system-use entry at `off` (the dispatch over the
two-byte ASCII signature in `constructSystemUseEntries`; the
`EntrySignature` enum values are the big-endian ASCII pairs). -/
def parseSUEntry (d : List Nat) (off : Nat) : SUEntry :=
  let b0 := byteAt d off
  let b1 := byteAt d (off + 1)
  let len := byteAt d (off + 2)
  if b0 = 83 ∧ b1 = 80 then .SP (byteAt d (off + 4)) (byteAt d (off + 5)) (byteAt d (off + 6))
  else if b0 = 83 ∧ b1 = 84 then .ST
  else if b0 = 69 ∧ b1 = 82 then .ER (byteAt d (off + 4)) (byteSlice d (off + 8) (byteAt d (off + 4)))
  else if b0 = 82 ∧ b1 = 82 then .RR
  else if b0 = 67 ∧ b1 = 69 then .CE (leU64 d (off + 4)) (leU64 d (off + 12)) (leU64 d (off + 20))
  else if b0 = 80 ∧ b1 = 88 then .PX (leU64 d (off + 4))
  else if b0 = 83 ∧ b1 = 76 then .SL (byteAt d (off + 4)) (parseSLComponents d off len 5 len)
  else if b0 = 78 ∧ b1 = 77 then .NM (byteAt d (off + 4)) (byteSlice d (off + 5) len)
  else if b0 = 67 ∧ b1 = 76 then .CL (leU32 d (off + 4))
  else if b0 = 82 ∧ b1 = 69 then .RE
  else .other b0 b1

/-- Continuation entries of a CE entry as the source computes them:
`_entries` is initialized to the empty array and `entries()` only assigns
through `this._entries ||= constructSystemUseEntries(...)`; an empty array is
truthy, so the continuation area is never walked and the result is always
the initial empty array. -/
def ceEntriesCode (_extent _offset _size : Nat) : List SUEntry :=
  []

/-- Loop of `constructSystemUseEntries`: `stop` is the adjusted bound
(`length - 4`), the cursor advances by each entry's length byte, a zero
length aborts, `ST` terminates, and a `CE` entry is replaced by
`entry.entries()` (which the source always evaluates to `[]`, see
`ceEntriesCode`). Fuel bounds the iterations; callers pass at least the
distance to the bound, which suffices since every step advances by ≥ 1. -/
def suspLoop (d : List Nat) (stop : Int) : Nat → Nat → List SUEntry
  | 0, _ => []
  | fuel + 1, off =>
    if (off : Int) < stop then
      let len := byteAt d (off + 2)
      if len = 0 then []
      else
        let entry := parseSUEntry d off
        if entry = .ST then []
        else
          (match entry with
           | .CE extent offset size => ceEntriesCode extent offset size
           | e => [e]) ++ suspLoop d stop fuel (off + len)
    else []

/-- Model of `constructSystemUseEntries(buffer, byteOffset, length)`: the remaining
area bound is `length - 4`. -/
def constructSystemUseEntries (d : List Nat) (off : Nat) (len : Int) : List SUEntry :=
  suspLoop d (len - 4) ((len - 4).toNat + 1) off

/-- Record length (`this.data[0]`). -/
def recLength (data : List Nat) (i : Nat) : Nat :=
  byteAt data i

/-- Byte offset of the record's extent: the little-endian LBA sector number
times 2048 (`get lba() { return this._lba * 2048 }`). -/
def recLba (data : List Nat) (i : Nat) : Nat :=
  leU32 data (i + 2) * 2048

/-- Model of `dataLength`, little-endian at record offset 10. -/
def recDataLength (data : List Nat) (i : Nat) : Nat :=
  leU32 data (i + 10)

/-- Model of `fileFlags`, the byte at record offset 25. -/
def recFileFlags (data : List Nat) (i : Nat) : Nat :=
  byteAt data (i + 25)

/-- Model of `identifierLength`, the byte at record offset 32. -/
def recIdentifierLength (data : List Nat) (i : Nat) : Nat :=
  byteAt data (i + 32)

/-- The decoded (and lower-cased) identifier: bytes 33..33+identifierLength. -/
def recIdentifier (data : List Nat) (kind : String) (i : Nat) : List Nat :=
  recDecode kind (byteSlice data (i + 33) (recIdentifierLength data i))

/-- Rock Ridge offsets are stored as -1 when disabled
(`hasRockRidge` is `this._rockRidgeOffset > -1`). -/
def hasRockRidge (rr : Int) : Bool :=
  rr > -1

/-- System-use entries of the record at offset `i`
(`_constructSUEntries`): start after the identifier, skip the pad byte when
the offset is odd, add the Rock Ridge offset, then walk the SUSP area bounded
by the record length. -/
def recSUEntries (data : List Nat) (i : Nat) (rr : Int) : List SUEntry :=
  let start : Int := 33 + recIdentifierLength data i
  let start : Int := if start % 2 = 1 then start + 1 else start
  constructSystemUseEntries (data.drop i) (start + rr).toNat (recLength data i)

/-- Model of `isDirectory`: the Directory file flag, or (with Rock Ridge) a CL entry. -/
def recIsDirectory (data : List Nat) (i : Nat) (rr : Int) : Bool :=
  recFileFlags data i &&& 2 ≠ 0 ||
    (hasRockRidge rr &&
      (recSUEntries data i rr).any (fun e => match e with | .CL _ => true | _ => false))

/-- Model of `isSymlink`: Rock Ridge active and at least one SL entry. -/
def recIsSymlink (data : List Nat) (i : Nat) (rr : Int) : Bool :=
  hasRockRidge rr &&
    (recSUEntries data i rr).any (fun e => match e with | .SL _ _ => true | _ => false)

/-- The concatenation of an NM chain (`_rockRidgeFilename` loop): append each
name and stop at the first entry without the CONTINUE flag. -/
def nmConcat (kind : String) : List (Nat × List Nat) → List Nat
  | [] => []
  | (flags, bs) :: rest =>
    recDecode kind bs ++ (if flags &&& 1 = 0 then [] else nmConcat kind rest)

/-- Model of `_rockRidgeFilename`: `null` when there is no NM entry or the first one
carries CURRENT or PARENT, otherwise the concatenated chain. -/
def rockRidgeFilename (data : List Nat) (kind : String) (i : Nat) (rr : Int) :
    Option (List Nat) :=
  let nmEntries := (recSUEntries data i rr).filterMap
    (fun e => match e with | .NM flags bs => some (flags, bs) | _ => none)
  match nmEntries with
  | [] => none
  | (flags0, _) :: _ =>
    if flags0 &&& 6 ≠ 0 then none else some (nmConcat kind nmEntries)

/-- Model of `fileName`: the Rock Ridge name when present, the raw identifier for
directories, otherwise the identifier trimmed at the `;` version separator
(also dropping a just-preceding `.`; identifiers without a separator are
returned whole for Joliet tolerance). -/
def fileName (data : List Nat) (kind : String) (i : Nat) (rr : Int) : List Nat :=
  match (if hasRockRidge rr then rockRidgeFilename data kind i rr else none) with
  | some fn => fn
  | none =>
    let ident := recIdentifier data kind i
    if recIsDirectory data i rr then ident
    else
      match ident.findIdx? (fun c => c = 59) with
      | none => ident
      | some sep =>
        if 1 ≤ sep ∧ ident.getD (sep - 1) 0 = 46 then ident.take (sep - 1)
        else ident.take sep

/-- The component walk of `getSymlinkPath`: CURRENT appends `./`, PARENT
appends the mangled `@zenfs/core/` literal found in the source, ROOT appends
`/`, and any other component appends its decoded content plus `/` unless
CONTINUE is set. -/
def slComponentsPath (kind : String) : List (Nat × List Nat) → List Nat
  | [] => []
  | (flags, content) :: rest =>
    (if flags &&& 2 ≠ 0 then str "./"
     else if flags &&& 4 ≠ 0 then str "@zenfs/core/"
     else if flags &&& 8 ≠ 0 then str "/"
     else recDecode kind content ++ (if flags &&& 1 = 0 then str "/" else [])) ++
      slComponentsPath kind rest

/-- The SL-entry walk of `getSymlinkPath`: process every SL entry in order
and stop after the first one whose continue flag (bit 0) is clear. -/
def slWalk (kind : String) : List SUEntry → List Nat
  | [] => []
  | .SL flags comps :: rest =>
    slComponentsPath kind comps ++ (if flags &&& 1 ≠ 0 then slWalk kind rest else [])
  | _ :: rest => slWalk kind rest

/-- Model of `getSymlinkPath`: walk the SL entries, then trim one trailing `/` when
the result is longer than one character. -/
def getSymlinkPath (kind : String) (entries : List SUEntry) : List Nat :=
  let p := slWalk kind entries
  if p.length > 1 ∧ p.getLast? = some 47 then p.dropLast else p

/-- The loop guard `i < limit`, with `none` modelling `Infinity`. -/
def underLimit (i : Nat) : Option Nat → Bool
  | some l => decide (i < l)
  | none => true

/-- One record-pair as inserted by the `Directory` constructor loop:
zero length bytes advance by one (sector padding), `.`/`..` and
RE-marked records are skipped (the first skipped record supplies the limit
for a CL-relocated directory), and every other record's fileName is bound to
its byte offset with `Map.set`. Fuel bounds the iterations; each step
advances the cursor by at least one byte. -/
def isoDirLoop (data : List Nat) (kind : String) (rr : Int) :
    Nat → Nat → Option Nat → List (List Nat × Nat) → List (List Nat × Nat)
  | 0, _, _, acc => acc
  | fuel + 1, i, limit, acc =>
    if underLimit i limit then
      let len := byteAt data i
      if len = 0 then isoDirLoop data kind rr fuel (i + 1) limit acc
      else
        let name := fileName data kind i rr
        if name ≠ [0] ∧ name ≠ [1] ∧
            (hasRockRidge rr = false ∨
              ¬ (recSUEntries data i rr).any (fun e => e = .RE)) then
          isoDirLoop data kind rr fuel (i + len) limit (jsSet acc name i)
        else
          let limit2 := match limit with
            | none => some (i + recDataLength data i)
            | some l => some l
          isoDirLoop data kind rr fuel (i + len) limit2 acc
    else acc

/-- The record insertions the same loop performs, in order. -/
def isoDirInserts (data : List Nat) (kind : String) (rr : Int) :
    Nat → Nat → Option Nat → List (List Nat × Nat)
  | 0, _, _ => []
  | fuel + 1, i, limit =>
    if underLimit i limit then
      let len := byteAt data i
      if len = 0 then isoDirInserts data kind rr fuel (i + 1) limit
      else
        let name := fileName data kind i rr
        if name ≠ [0] ∧ name ≠ [1] ∧
            (hasRockRidge rr = false ∨
              ¬ (recSUEntries data i rr).any (fun e => e = .RE)) then
          (name, i) :: isoDirInserts data kind rr fuel (i + len) limit
        else
          let limit2 := match limit with
            | none => some (i + recDataLength data i)
            | some l => some l
          isoDirInserts data kind rr fuel (i + len) limit2
    else []

/-- The `Directory` map of the record at offset `i`: records with the
Directory flag walk their extent for `dataLength` bytes; records reached
through a CL entry (relocated directories) start at the CL extent with the
limit supplied by the first skipped entry. The fuel covers the loop's
iteration count (one byte of extent per iteration at worst; the CL branch of
the source loops forever on a malformed image, which the model cuts at its
fuel). -/
def isoDirectory (data : List Nat) (kind : String) (i : Nat) (rr : Int) :
    List (List Nat × Nat) :=
  if recFileFlags data i &&& 2 ≠ 0 then
    isoDirLoop data kind rr (recDataLength data i + 1) (recLba data i)
      (some (recLba data i + recDataLength data i)) []
  else
    match (recSUEntries data i rr).filterMap
        (fun e => match e with | .CL lba => some lba | _ => none) with
    | [] => []
    | cl :: _ =>
      isoDirLoop data kind rr (data.length + 4294967297) (cl * 2048) none []

/-- Case folding options of the ISO backend (`caseFold?: 'upper' | 'lower'`). -/
inductive CaseFold where
  | upper
  | lower
deriving DecidableEq, Repr

/-- Modelled from the spec: the case-fold hook applied by the VFS surface is
not part of the sources (only the tests pass `caseFold`); per §6, when
`caseFold` is set every path component supplied by the caller is transformed
(upper or lower) before lookup. -/
def foldComponent : Option CaseFold → List Nat → List Nat
  | none, s => s
  | some .upper, s => s.map jsToUpper
  | some .lower, s => s.map jsToLower

/-- Model of `String.prototype.split('/')` on code points. -/
def splitOnSlash : List Nat → List (List Nat)
  | [] => [[]]
  | c :: rest =>
    if c = 47 then [] :: splitOnSlash rest
    else
      match splitOnSlash rest with
      | [] => [[c]]
      | s :: ss => (c :: s) :: ss

/-- Model of `path.split('/').slice(1)`, the component list used by
`_getDirectoryRecord`. -/
def splitPath (p : List Nat) : List (List Nat) :=
  (splitOnSlash p).drop 1

/-- The component walk of `_getDirectoryRecord`: each folded component is
looked up in the current record's directory map after checking that the
current record is a directory. -/
def isoResolveGo (data : List Nat) (kind : String) (rr : Int) (cf : Option CaseFold) :
    List (List Nat) → Nat → Option Nat
  | [], cur => some cur
  | part :: rest, cur =>
    if recIsDirectory data cur rr then
      match jsGet (isoDirectory data kind cur rr) (foldComponent cf part) with
      | some next => isoResolveGo data kind rr cf rest next
      | none => none
    else none

/-- Model of `_getDirectoryRecord(path)`: the root record for `/`, otherwise the
component walk from the root (components folded per the spec's case-fold
hook before lookup). -/
def isoResolve (data : List Nat) (kind : String) (rr : Int) (cf : Option CaseFold)
    (rootOff : Nat) (p : List Nat) : Option Nat :=
  if p = [47] then some rootOff
  else isoResolveGo data kind rr cf (splitPath p) rootOff

/-- Model of `getFile`: the extent bytes `isoData.slice(lba, lba + dataLength)`. -/
def recFileBytes (data : List Nat) (i : Nat) : List Nat :=
  byteSlice data (recLba data i) (recDataLength data i)

/-- Model of `IsoFS.readSync`: resolve the path (ENOENT when absent), reject
directories with EISDIR, and copy `file.subarray(offset, end)`. -/
def isoReadSync (data : List Nat) (kind : String) (rr : Int) (cf : Option CaseFold)
    (rootOff : Nat) (p : List Nat) (o e : Nat) : FsRes (List Nat) :=
  match isoResolve data kind rr cf rootOff p with
  | none => .error .ENOENT
  | some rec =>
    if recIsDirectory data rec rr then .error .EISDIR
    else .ok (subarray (recFileBytes data rec) o e)

/-- The little-endian 32-bit value assembled by `computeEOCD` from the four
bytes at a candidate offset (`data[0] | data[1] << 8 | data[2] << 16 |
data[3] << 24 >>> 0`); the byte source may be probed at negative offsets, so
offsets are integers. -/
def eocdSig (byte : Int → Nat) (off : Int) : Nat :=
  byte off ||| byte (off + 1) <<< 8 ||| byte (off + 2) <<< 16 ||| byte (off + 3) <<< 24

/-- The descending candidate list `[hi, hi-1, ..., hi-count+1]`. -/
def intRangeDesc (hi : Int) : Nat → List Int
  | 0 => []
  | n + 1 => hi :: intRangeDesc (hi - 1) n

/-- The offsets `computeEOCD` examines: the loop
`for (let offset = source.size - 22; offset > source.size - 0xffff; offset--)`
runs over `size-22` down to `size-65534`, which is 65513 candidates whatever
the size (no clamping at zero). -/
def eocdCandidates (size : Int) : List Int :=
  intRangeDesc (size - 22) 65513

/-- The scan loop: return the first candidate offset whose leading four
bytes form the EOCD signature. -/
def eocdLoop (byte : Int → Nat) : List Int → Option Int
  | [] => none
  | off :: rest =>
    if eocdSig byte off = 0x06054b50 then some off else eocdLoop byte rest

/-- Model of `computeEOCD`: `some offset` models returning the header decoded at that
offset, `none` models the `EINVAL` throw after the scan is exhausted. -/
def computeEOCD (byte : Int → Nat) (size : Int) : Option Int :=
  eocdLoop byte (eocdCandidates size)

/-- The offsets at which the scan issues `source.get(offset, 22)`: every
candidate up to and including the first match (all of them when none
matches). -/
def eocdProbedAux (byte : Int → Nat) : List Int → List Int
  | [] => []
  | off :: rest =>
    if eocdSig byte off = 0x06054b50 then [off] else off :: eocdProbedAux byte rest

/-- The probe trace of `computeEOCD`. -/
def eocdProbed (byte : Int → Nat) (size : Int) : List Int :=
  eocdProbedAux byte (eocdCandidates size)

/-- A central-directory entry as the ZIP file system consumes it. The name is
kept as stored (backslashes normalized by the `name` getter); `contents`
holds the entry's decompressed bytes (`decompress` and the local-header
resolution live outside the embedded sources). -/
structure ZipEntry where
  rawName : List Nat
  externalAttributes : Nat
  uncompressedSize : Nat
  contents : List Nat
deriving DecidableEq, Repr

/-- Model of `FileEntry.name`: the stored name with every backslash replaced by a
forward slash (`.replace(/\\/g, '/')`). -/
def zipEntryName (e : ZipEntry) : List Nat :=
  e.rawName.map (fun b => if b = 92 then 47 else b)

/-- Model of `FileEntry.isDirectory`: the 0x10 bit of the external attributes, or a
trailing `/` on the name. -/
def zipEntryIsDirectory (e : ZipEntry) : Bool :=
  e.externalAttributes &&& 16 ≠ 0 || (zipEntryName e).getLast? = some 47

/-- The key stored by the central-directory walk: strip a single trailing
`/`, then prepend `/`. -/
def zipKey (e : ZipEntry) : List Nat :=
  let name := zipEntryName e
  47 :: (if name.getLast? = some 47 then name.dropLast else name)

/-- The `files` map built by the central-directory walk:
`this.files.set('/' + name, cd)` in entry order. -/
def zipFilesMap (es : List ZipEntry) : List (List Nat × ZipEntry) :=
  es.foldl (fun m e => jsSet m (zipKey e) e) []

/-- Model of `parse(entry).base` of the VFS path module: the suffix after the last
slash. -/
def parseBase (p : List Nat) : List Nat :=
  (p.reverse.takeWhile (fun c => c ≠ 47)).reverse

/-- Model of `parse(entry).dir`: everything before the last slash, `/` when the last
slash is the leading one, and the empty string when there is no slash. -/
def parseDir (p : List Nat) : List Nat :=
  match p.reverse.dropWhile (fun c => c ≠ 47) with
  | [] => []
  | _ :: tail => if tail = [] then [47] else tail.reverse

/-- One step of directory synthesis: create the parent's set when missing,
then add the basename
(`if (!directories.has(dir)) directories.set(dir, new Set()); get(dir).add(base)`). -/
def dirAdd (ds : List (List Nat × List (List Nat))) (d b : List Nat) :
    List (List Nat × List (List Nat)) :=
  jsSet ds d (jsAdd ((jsGet ds d).getD []) b)

/-- The first synthesis pass over the file keys
(`for (const entry of this.files.keys())`). -/
def dirsPass1 (keys : List (List Nat)) : List (List Nat × List (List Nat)) :=
  keys.foldl (fun ds k => dirAdd ds (parseDir k) (parseBase k)) []

/-- The measure of the pending worklist: JavaScript map iteration visits
entries appended during iteration, and every appended key is strictly
shorter than the key that produced it, so the summed lengths bound the
remaining iterations. -/
def tvMeasure (tv : List (List Nat)) : Nat :=
  (tv.map (fun k => k.length + 1)).sum

/-- The second synthesis pass (`for (const entry of this.directories.keys())`
while inserting): a FIFO worklist of directory keys; keys with an empty
basename are skipped, every other key registers its basename with its parent,
appending the parent to the worklist when it is a fresh map key. -/
def dirsPass2 : Nat → List (List Nat × List (List Nat)) → List (List Nat) →
    List (List Nat × List (List Nat))
  | 0, ds, _ => ds
  | _ + 1, ds, [] => ds
  | fuel + 1, ds, k :: rest =>
    if parseBase k = [] then dirsPass2 fuel ds rest
    else
      let d := parseDir k
      let tv2 := if hasKey ds d then rest else rest ++ [d]
      dirsPass2 fuel (dirAdd ds d (parseBase k)) tv2

/-- The synthesized directory index for a list of file keys. -/
def zipDirectories (keys : List (List Nat)) : List (List Nat × List (List Nat)) :=
  let ds := dirsPass1 keys
  dirsPass2 (tvMeasure (mapKeys ds)) ds (mapKeys ds)

/-- The directory index of a mounted ZIP file system. -/
def zipDirs (es : List ZipEntry) : List (List Nat × List (List Nat)) :=
  zipDirectories (mapKeys (zipFilesMap es))

/-- Inode data surfaced by `statSync` (times omitted: they are wall-clock
reads). -/
structure ZipInode where
  mode : Nat
  size : Nat
deriving DecidableEq, Repr

/-- Model of `S_IFDIR`. -/
def S_IFDIR : Nat := 0x4000

/-- Model of `S_IFREG`. -/
def S_IFREG : Nat := 0x8000

/-- The synthetic directory inode (`mode: 0o555 | S_IFDIR, size: 4096`). -/
def zipDirInode : ZipInode :=
  { mode := 0o555 ||| S_IFDIR, size := 4096 }

/-- The inode of a central-directory entry
(`0o555 | (isDirectory ? S_IFDIR : S_IFREG)`, `size: uncompressedSize`). -/
def zipEntryInode (e : ZipEntry) : ZipInode :=
  { mode := 0o555 ||| (if zipEntryIsDirectory e then S_IFDIR else S_IFREG),
    size := e.uncompressedSize }

/-- Model of `ZipFS.statSync`: synthesized directories first, then the file map,
otherwise ENOENT. -/
def zipStatSync (es : List ZipEntry) (p : List Nat) : FsRes ZipInode :=
  if hasKey (zipDirs es) p then .ok zipDirInode
  else
    match jsGet (zipFilesMap es) p with
    | none => .error .ENOENT
    | some e => .ok (zipEntryInode e)

/-- Model of `ZipFS.readdirSync`: stat must yield a directory (ENOTDIR otherwise),
and a directory missing from the index is ENODATA. -/
def zipReaddirSync (es : List ZipEntry) (p : List Nat) : FsRes (List (List Nat)) :=
  match zipStatSync es p with
  | .error err => .error err
  | .ok inode =>
    if inode.mode &&& S_IFDIR = 0 then .error .ENOTDIR
    else
      match jsGet (zipDirs es) p with
      | none => .error .ENODATA
      | some s => .ok s

/-- Model of `ZipFS.readSync`: EISDIR for keys of the directory index, ENOENT for
paths absent from the file map, otherwise a copy of
`contents.subarray(offset, end)`. -/
def zipReadSync (es : List ZipEntry) (p : List Nat) (o e : Nat) : FsRes (List Nat) :=
  if hasKey (zipDirs es) p then .error .EISDIR
  else
    match jsGet (zipFilesMap es) p with
    | none => .error .ENOENT
    | some ent => .ok (subarray ent.contents o e)

/-- A central-directory entry of the lazy (stream-capable) ZIP file system:
`contents?` is `none` until `loadContents` resolves, and `loadResult` is the
value that resolution assigns (local-header walk plus decompression, outside
the embedded sources). -/
structure LazyZipEntry where
  rawName : List Nat
  externalAttributes : Nat
  contentsQ : Option (List Nat)
  loadResult : List Nat
deriving DecidableEq, Repr

/-- Name normalization, as for eager entries. -/
def lazyEntryName (e : LazyZipEntry) : List Nat :=
  e.rawName.map (fun b => if b = 92 then 47 else b)

/-- The stored key of a lazy entry. -/
def lazyZipKey (e : LazyZipEntry) : List Nat :=
  let name := lazyEntryName e
  47 :: (if name.getLast? = some 47 then name.dropLast else name)

/-- The `files` map built by `ZipFS.ready` in lazy mode. -/
def lazyFilesMap (es : List LazyZipEntry) : List (List Nat × LazyZipEntry) :=
  es.foldl (fun m e => jsSet m (lazyZipKey e) e) []

/-- The directory index of a lazily mounted ZIP file system. -/
def lazyDirs (es : List LazyZipEntry) : List (List Nat × List (List Nat)) :=
  zipDirectories (mapKeys (lazyFilesMap es))

/-- The lazy `ZipFS.readSync`: when the contents are not yet resolved it
kicks off `loadContents` (the Boolean records that the resolution was
started) and throws EAGAIN; otherwise it copies
`contents.subarray(offset, end)`. -/
def zipReadSyncLazy (es : List LazyZipEntry) (p : List Nat) (o e : Nat) :
    FsRes (List Nat) × Bool :=
  if hasKey (lazyDirs es) p then (.error .EISDIR, false)
  else
    match jsGet (lazyFilesMap es) p with
    | none => (.error .ENOENT, false)
    | some ent =>
      match ent.contentsQ with
      | none => (.error .EAGAIN, true)
      | some c => (.ok (subarray c o e), false)

/-- The lazy asynchronous `ZipFS.read`: it awaits `loadContents` when the
contents are unresolved, then copies `contents.subarray(offset, end)`. -/
def zipReadLazy (es : List LazyZipEntry) (p : List Nat) (o e : Nat) :
    FsRes (List Nat) :=
  if hasKey (lazyDirs es) p then .error .EISDIR
  else
    match jsGet (lazyFilesMap es) p with
    | none => .error .ENOENT
    | some ent => .ok (subarray (ent.contentsQ.getD ent.loadResult) o e)

/-- Splicing behavior the spec prescribes for CE entries: follow the
continuation to `extent * logicalBlockSize + offset` for `size` bytes and
splice the entries found there in place of the CE entry. This definition
follows the spec's words and is compared against
`constructSystemUseEntries` above; the fuel bounds the total number of
parsed entries across splices (the spec asks for a bounded continuation
depth). -/
def suspLoopSpec (d : List Nat) : Nat → Int → Nat → List SUEntry
  | 0, _, _ => []
  | fuel + 1, stop, off =>
    if (off : Int) < stop then
      let len := byteAt d (off + 2)
      if len = 0 then []
      else
        let entry := parseSUEntry d off
        if entry = .ST then []
        else
          (match entry with
           | .CE extent offset size =>
             suspLoopSpec d fuel (extent * 2048 + offset + size : Nat)
               (extent * 2048 + offset)
           | e => [e]) ++ suspLoopSpec d fuel stop (off + len)
    else []

/-- The spec reading of `constructSystemUseEntries`, with CE continuation
areas spliced in place. -/
def constructSystemUseEntriesSpec (d : List Nat) (off : Nat) (len : Int) : List SUEntry :=
  suspLoopSpec d (32 * 4096) (len - 4) off

/-- Concrete SUSP area for the CE claim: a CE entry at offset 0 pointing at
a continuation area at byte 48 (extent 0, offset 48, size 40) that holds a
PX entry with mode 0o755. -/
def ceExampleBytes : List Nat :=
  [67, 69, 28, 1,
   0, 0, 0, 0, 0, 0, 0, 0,
   48, 0, 0, 0, 0, 0, 0, 0,
   40, 0, 0, 0, 0, 0, 0, 0] ++
  List.replicate 20 0 ++
  [80, 88, 12, 1, 237, 1, 0, 0, 0, 0, 0, 0] ++
  List.replicate 4 0

/-- A byte source whose tail holds the EOCD signature right at `size - 22`,
used to exercise the scan at a concrete input. -/
def eocdWitnessByte : Int → Nat := fun i =>
  if i = 0 then 0x50 else if i = 1 then 0x4b else if i = 2 then 0x05
  else if i = 3 then 0x06 else 0

/-- A directory extent holding two 34-byte file records that both decode to
the fileName "a", followed (at offset 68) by the parent directory record
whose extent starts at byte 0 and spans the 68 bytes of the two children. -/
def dupNameIsoBytes : List Nat :=
  [34, 0, 0, 0, 0, 0, 0, 0, 0, 0, 0, 0, 0, 0, 0, 0, 0, 0,
   0, 0, 0, 0, 0, 0, 0, 0, 0, 0, 0, 0, 0, 0, 1, 65] ++
  [34, 0, 0, 0, 0, 0, 0, 0, 0, 0, 0, 0, 0, 0, 0, 0, 0, 0,
   0, 0, 0, 0, 0, 0, 0, 0, 0, 0, 0, 0, 0, 0, 1, 65] ++
  [34, 0, 0, 0, 0, 0, 0, 0, 0, 0, 68, 0, 0, 0, 0, 0, 0, 0,
   0, 0, 0, 0, 0, 0, 0, 2, 0, 0, 0, 0, 0, 0, 1, 0]

/-- Membership of a basename in a directory's synthesized child set. -/
def dirHas (ds : List (List Nat × List (List Nat))) (d b : List Nat) : Prop :=
  ∃ s, jsGet ds d = some s ∧ b ∈ s

/-- The parse chain of a path: the (directory, basename) pairs produced by
iterating `parse` until the basename is empty; the fuel (a length bound)
makes the iteration structural. -/
def chainFuel : Nat → List Nat → List (List Nat × List Nat)
  | 0, _ => []
  | fuel + 1, k =>
    if parseBase k = [] then []
    else (parseDir k, parseBase k) :: chainFuel fuel (parseDir k)

/-- The strict-prefix directories of a path, each paired with the child
basename along the path. -/
def ancestorChain (k : List Nat) : List (List Nat × List Nat) :=
  chainFuel k.length k

/-- A key whose parse chain reaches the root with nonempty basenames
throughout (fuelled iteration of `parse`). -/
def wfKeyFuel : Nat → List Nat → Bool
  | 0, _ => false
  | fuel + 1, k =>
    k = [47] || (decide (parseBase k ≠ []) && wfKeyFuel fuel (parseDir k))

/-- A well-formed absolute key: no ancestor has an empty basename before
the chain reaches `/`. -/
def wfKey (k : List Nat) : Bool :=
  wfKeyFuel k.length k

theorem jsGet_jsSet_self {K V : Type} [DecidableEq K] (m : List (K × V)) (k : K) (v : V) :
    jsGet (jsSet m k v) k = some v := by
  induction m with
  | nil => simp [jsSet, jsGet]
  | cons p rest ih =>
    by_cases h : p.1 = k
    · simp [jsSet, jsGet, h]
    · simp [jsSet, jsGet, h, ih]

theorem jsGet_jsSet_other {K V : Type} [DecidableEq K] (m : List (K × V)) (k k' : K) (v : V)
    (h : k ≠ k') : jsGet (jsSet m k v) k' = jsGet m k' := by
  induction m with
  | nil => simp only [jsSet, jsGet, if_neg h]
  | cons p rest ih =>
    simp only [jsSet]
    by_cases hp : p.1 = k
    · rw [if_pos hp]
      simp only [jsGet]
      rw [if_neg h, if_neg (hp ▸ h)]
    · rw [if_neg hp]
      simp only [jsGet]
      by_cases hp' : p.1 = k'
      · rw [if_pos hp', if_pos hp']
      · rw [if_neg hp', if_neg hp', ih]

theorem hasKey_jsSet {K V : Type} [DecidableEq K] (m : List (K × V)) (k k' : K) (v : V) :
    hasKey (jsSet m k v) k' = true ↔ hasKey m k' = true ∨ k' = k := by
  by_cases h : k = k'
  · subst h
    simp [hasKey, jsGet_jsSet_self]
  · rw [hasKey, jsGet_jsSet_other m k k' v h]
    constructor
    · intro hh; exact Or.inl hh
    · intro hh
      rcases hh with hh | hh
      · exact hh
      · exact absurd hh.symm h

/-- The bindings written by a sequence of `Map.set` calls: the final lookup
returns the value of the last call whose key matches. -/
theorem jsGet_foldl_jsSet {K V : Type} [DecidableEq K]
    (ps : List (K × V)) (m : List (K × V)) (k : K) :
    jsGet (ps.foldl (fun acc p => jsSet acc p.1 p.2) m) k =
      match ps.reverse.find? (fun p => decide (p.1 = k)) with
      | some p => some p.2
      | none => jsGet m k := by
  induction ps generalizing m with
  | nil => simp
  | cons p rest ih =>
    simp only [List.foldl_cons, List.reverse_cons]
    rw [ih]
    rcases hfind : rest.reverse.find? (fun q => decide (q.1 = k)) with _ | q
    · rw [List.find?_append, hfind]
      simp only [Option.none_orElse]
      by_cases hk : p.1 = k
      · subst hk
        simp [List.find?, jsGet_jsSet_self]
      · simp [List.find?, hk, jsGet_jsSet_other m p.1 k p.2 hk]
    · rw [List.find?_append, hfind]
      simp

theorem jsToUpper_congr_of_lower (a b : Nat) (h : jsToLower a = jsToLower b) :
    jsToUpper a = jsToUpper b := by
  unfold jsToLower at h
  unfold jsToUpper
  split at h <;> split at h <;> split <;> split <;> omega

/-- C2: for an ISO image whose selected descriptor is a valid Joliet
supplementary descriptor the claim asserts that all filesystem-visible
strings decode as UTF-16BE. The selection does yield the Joliet candidate
and directory-record identifiers do decode as UTF-16BE, but the volume
descriptor's own strings decode as UTF-8, because `PrimaryVolumeDescriptor`
compares its name against the misspelled literal 'Joilet'; the same
UTF-16BE bytes (here the single character 'J') decode differently through
the two paths. -/
theorem joliet_string_decoding_divergence :
    selectVolumeDescriptor [{ type := 2, esc0 := 37, esc1 := 47, esc2 := 64 }] = .ok "Joliet" ∧
    recordStringEncoding "Joliet" = .utf16be ∧
    pvdStringEncoding "Joliet" = .utf8 ∧
    recDecode "Joliet" [0, 74] = [106] ∧
    pvdDecode "Joliet" [0, 74] = [0, 106] ∧
    pvdDecode "Joliet" [0, 74] ≠ recDecode "Joliet" [0, 74] := by
  decide

/-- C3: the claim says a PARENT-flagged SL component appends `../`. Both
`getSymlinkPath` variants in the sources instead append the mangled literal
`@zenfs/core/` (an import-rewrite accident), so a symlink whose single
component carries the PARENT flag resolves to `@zenfs/core` instead of `..`. -/
theorem symlink_parent_component_divergence :
    getSymlinkPath "ISO9660" [SUEntry.SL 0 [(4, [])]] = str "@zenfs/core" ∧
    getSymlinkPath "ISO9660" [SUEntry.SL 0 [(4, [])]] ≠ str ".." := by
  decide

/-- C8: the claim (and the spec) require a CE entry to be followed to
`extent * logicalBlockSize + offset` for `size` bytes with the entries found
there spliced in place. The source splices `entry.entries()`, but `_entries`
is initialized to `[]` and only assigned through `||=`, which never fires on
a truthy empty array — so the continuation area is never read and the splice
is empty. On the concrete area the code drops the PX entry the spec walk
recovers. -/
theorem susp_ce_entries_dropped :
    constructSystemUseEntries ceExampleBytes 0 36 = [] ∧
    constructSystemUseEntriesSpec ceExampleBytes 0 36 = [SUEntry.PX 493] ∧
    constructSystemUseEntries ceExampleBytes 0 36 ≠
      constructSystemUseEntriesSpec ceExampleBytes 0 36 := by
  decide

/-- C7: on a lazily mounted ZIP file system, a synchronous read of a file
whose contents are not yet resolved starts the asynchronous resolution and
throws EAGAIN, while the asynchronous read awaits the resolution and copies
`contents[offset:end]` into the caller's buffer. -/
theorem zip_lazy_read_eagain (es : List LazyZipEntry) (p : List Nat) (o e : Nat)
    (ent : LazyZipEntry)
    (hdir : hasKey (lazyDirs es) p = false)
    (hfile : jsGet (lazyFilesMap es) p = some ent)
    (hunresolved : ent.contentsQ = none) :
    zipReadSyncLazy es p o e = (.error .EAGAIN, true) ∧
    zipReadLazy es p o e = .ok (subarray ent.loadResult o e) := by
  unfold zipReadSyncLazy zipReadLazy
  rw [hdir, hfile]
  simp [hunresolved]

theorem zip_lazy_read_eagain_witness :
    zipReadSyncLazy [⟨str "a.txt", 0, none, [49, 50]⟩] (str "/a.txt") 0 2 =
      (.error .EAGAIN, true) ∧
    zipReadLazy [⟨str "a.txt", 0, none, [49, 50]⟩] (str "/a.txt") 0 2 =
      .ok (subarray [49, 50] 0 2) :=
  zip_lazy_read_eagain [⟨str "a.txt", 0, none, [49, 50]⟩] (str "/a.txt") 0 2
    ⟨str "a.txt", 0, none, [49, 50]⟩ (by decide) (by decide) (by decide)

/-- C9 (amended): `ZipFS.readSync` throws EISDIR exactly for keys of the
synthesized directory index, ENOENT for paths absent from the file map, and
otherwise copies `contents[offset:end]` — also when the entry itself is
flagged as a directory (the dispatch never consults `isDirectory`). -/
theorem zip_read_dispatch_by_directory_index (es : List ZipEntry) (p : List Nat) (o e : Nat) :
    (hasKey (zipDirs es) p = true → zipReadSync es p o e = .error .EISDIR) ∧
    (hasKey (zipDirs es) p = false → jsGet (zipFilesMap es) p = none →
      zipReadSync es p o e = .error .ENOENT) ∧
    (∀ ent, hasKey (zipDirs es) p = false → jsGet (zipFilesMap es) p = some ent →
      zipReadSync es p o e = .ok (subarray ent.contents o e)) := by
  unfold zipReadSync
  refine ⟨fun h => ?_, fun h hn => ?_, fun ent h hs => ?_⟩
  · rw [h]
    simp
  · rw [h, hn]
    simp
  · rw [h, hs]
    simp

theorem zip_read_dispatch_witness :
    zipReadSync [⟨str "a", 0, 1, [7]⟩] (str "/a") 0 1 = .ok (subarray [7] 0 1) :=
  (zip_read_dispatch_by_directory_index [⟨str "a", 0, 1, [7]⟩] (str "/a") 0 1).2.2
    ⟨str "a", 0, 1, [7]⟩ (by decide) (by decide)

/-- C9 counterexample: an entry marked a directory solely by the 0x10 bit of
its external attributes (no trailing slash, no children) is not a key of the
directory index, so reading it succeeds with its contents instead of failing
with EISDIR — even though stat reports it as a directory. -/
theorem zip_read_attr_directory_not_eisdir :
    zipEntryIsDirectory ⟨str "foo", 16, 0, []⟩ = true ∧
    zipStatSync [⟨str "foo", 16, 0, []⟩] (str "/foo") =
      .ok { mode := 0o555 ||| S_IFDIR, size := 0 } ∧
    zipReadSync [⟨str "foo", 16, 0, []⟩] (str "/foo") 0 5 = .ok [] ∧
    zipReadSync [⟨str "foo", 16, 0, []⟩] (str "/foo") 0 5 ≠ .error .EISDIR := by
  decide

/-- C10: the `files` map binds every normalized path to the entry occurring
last in central-directory order, and the read and stat observables at that
path are computed from that last entry, so earlier entries with the same
normalized path are unreachable. -/
theorem zip_duplicate_path_last_wins (es : List ZipEntry) (p : List Nat) (o e : Nat) :
    jsGet (zipFilesMap es) p = es.reverse.find? (fun en => decide (zipKey en = p)) ∧
    (∀ ent, es.reverse.find? (fun en => decide (zipKey en = p)) = some ent →
      hasKey (zipDirs es) p = false →
      zipReadSync es p o e = .ok (subarray ent.contents o e) ∧
      zipStatSync es p = .ok (zipEntryInode ent)) := by
  have hmap : jsGet (zipFilesMap es) p = es.reverse.find? (fun en => decide (zipKey en = p)) := by
    have hfold : zipFilesMap es =
        (es.map (fun en => (zipKey en, en))).foldl (fun acc q => jsSet acc q.1 q.2) [] := by
      unfold zipFilesMap
      rw [List.foldl_map]
    rw [hfold, jsGet_foldl_jsSet]
    rw [← List.map_reverse, List.find?_map]
    rcases hf : es.reverse.find? (fun en => decide (zipKey en = p)) with _ | en
    · have : es.reverse.find?
          ((fun q : List Nat × ZipEntry => decide (q.1 = p)) ∘ fun en => (zipKey en, en)) =
          none := hf
      rw [this]
      simp [jsGet]
    · have : es.reverse.find?
          ((fun q : List Nat × ZipEntry => decide (q.1 = p)) ∘ fun en => (zipKey en, en)) =
          some en := hf
      rw [this]
      simp
  refine ⟨hmap, fun ent hlast hdir => ?_⟩
  rw [hlast] at hmap
  constructor
  · unfold zipReadSync
    rw [hdir, hmap]
    simp
  · unfold zipStatSync
    rw [hdir, hmap]
    simp

theorem zip_duplicate_path_last_wins_witness :
    jsGet (zipFilesMap [⟨str "x.txt", 0, 1, [1]⟩, ⟨str "x.txt", 0, 2, [2, 3]⟩]) (str "/x.txt") =
      some ⟨str "x.txt", 0, 2, [2, 3]⟩ ∧
    zipReadSync [⟨str "x.txt", 0, 1, [1]⟩, ⟨str "x.txt", 0, 2, [2, 3]⟩] (str "/x.txt") 0 2 =
      .ok (subarray [2, 3] 0 2) := by
  have h := zip_duplicate_path_last_wins
    [⟨str "x.txt", 0, 1, [1]⟩, ⟨str "x.txt", 0, 2, [2, 3]⟩] (str "/x.txt") 0 2
  have hfind : ([⟨str "x.txt", 0, 1, [1]⟩, ⟨str "x.txt", 0, 2, [2, 3]⟩] :
      List ZipEntry).reverse.find?
        (fun en => decide (zipKey en = str "/x.txt")) = some ⟨str "x.txt", 0, 2, [2, 3]⟩ := by
    decide
  refine ⟨by rw [h.1, hfind], ?_⟩
  exact (h.2 ⟨str "x.txt", 0, 2, [2, 3]⟩ hfind (by decide)).1

theorem mem_intRangeDesc (off hi : Int) : ∀ n : Nat,
    (off ∈ intRangeDesc hi n ↔ hi - n < off ∧ off ≤ hi) := by
  intro n
  induction n generalizing hi with
  | zero =>
    simp only [intRangeDesc, List.not_mem_nil, false_iff]
    omega
  | succ n ih =>
    simp only [intRangeDesc, List.mem_cons, ih (hi - 1)]
    omega

theorem eocdProbedAux_subset (byte : Int → Nat) :
    ∀ l : List Int, ∀ off ∈ eocdProbedAux byte l, off ∈ l := by
  intro l
  induction l with
  | nil => simp [eocdProbedAux]
  | cons x rest ih =>
    intro off hoff
    unfold eocdProbedAux at hoff
    by_cases hx : eocdSig byte x = 0x06054b50
    · rw [if_pos hx] at hoff
      simp only [List.mem_singleton] at hoff
      exact hoff ▸ List.mem_cons_self x rest
    · rw [if_neg hx] at hoff
      rcases List.mem_cons.mp hoff with h | h
      · exact h ▸ List.mem_cons_self x rest
      · exact List.mem_cons_of_mem x (ih off h)

theorem eocdLoop_none_iff (byte : Int → Nat) (hi : Int) : ∀ n : Nat,
    (eocdLoop byte (intRangeDesc hi n) = none ↔
      ∀ off : Int, hi - n < off → off ≤ hi → eocdSig byte off ≠ 0x06054b50) := by
  intro n
  induction n generalizing hi with
  | zero =>
    simp only [intRangeDesc, eocdLoop, true_iff]
    intro off h1 h2
    omega
  | succ n ih =>
    simp only [intRangeDesc, eocdLoop]
    by_cases hx : eocdSig byte hi = 0x06054b50
    · rw [if_pos hx]
      constructor
      · intro h; exact absurd h (by simp)
      · intro h
        exact absurd hx (h hi (by omega) (by omega))
    · rw [if_neg hx, ih (hi - 1)]
      constructor
      · intro h off h1 h2
        rcases eq_or_lt_of_le h2 with rfl | hlt
        · exact hx
        · exact h off (by omega) (by omega)
      · intro h off h1 h2
        exact h off (by omega) (by omega)

theorem eocdLoop_some (byte : Int → Nat) (hi : Int) : ∀ (n : Nat) (off : Int),
    eocdLoop byte (intRangeDesc hi n) = some off →
    hi - n < off ∧ off ≤ hi ∧ eocdSig byte off = 0x06054b50 ∧
      ∀ off2 : Int, off < off2 → off2 ≤ hi → eocdSig byte off2 ≠ 0x06054b50 := by
  intro n
  induction n generalizing hi with
  | zero =>
    intro off h
    simp [intRangeDesc, eocdLoop] at h
  | succ n ih =>
    intro off h
    simp only [intRangeDesc, eocdLoop] at h
    by_cases hx : eocdSig byte hi = 0x06054b50
    · rw [if_pos hx] at h
      obtain rfl : hi = off := by injection h
      refine ⟨by omega, le_refl _, hx, fun off2 h1 h2 => ?_⟩
      omega
    · rw [if_neg hx] at h
      obtain ⟨hb1, hb2, hsig, hmax⟩ := ih (hi - 1) off h
      refine ⟨by omega, by omega, hsig, fun off2 h1 h2 => ?_⟩
      rcases eq_or_lt_of_le h2 with rfl | hlt
      · exact hx
      · exact hmax off2 h1 (by omega)

/-- C6 (amended): the scan examines offsets downward from `size - 22` while
`offset > size - 65535` (so down to `size - 65534`), with no clamping at
zero — every probed offset lies in that window, which can reach below zero
for small sources; the scan returns the first (highest) offset in the window
whose leading four bytes form the little-endian signature 0x06054b50 and
fails exactly when no offset in the window matches. -/
theorem eocd_scan_range (byte : Int → Nat) (size : Int) :
    (∀ off ∈ eocdProbed byte size, size - 65535 < off ∧ off ≤ size - 22) ∧
    (computeEOCD byte size = none ↔
      ∀ off : Int, size - 65535 < off → off ≤ size - 22 → eocdSig byte off ≠ 0x06054b50) ∧
    (∀ off : Int, computeEOCD byte size = some off →
      size - 65535 < off ∧ off ≤ size - 22 ∧ eocdSig byte off = 0x06054b50 ∧
        ∀ off2 : Int, off < off2 → off2 ≤ size - 22 → eocdSig byte off2 ≠ 0x06054b50) := by
  refine ⟨fun off hoff => ?_, ?_, fun off h => ?_⟩
  · have hmem := eocdProbedAux_subset byte (eocdCandidates size) off hoff
    have := (mem_intRangeDesc off (size - 22) 65513).mp hmem
    omega
  · unfold computeEOCD eocdCandidates
    rw [eocdLoop_none_iff byte (size - 22) 65513]
    constructor
    · intro h off h1 h2
      exact h off (by omega) h2
    · intro h off h1 h2
      exact h off (by omega) h2
  · have := eocdLoop_some byte (size - 22) 65513 off h
    refine ⟨by omega, this.2.1, this.2.2.1, this.2.2.2⟩

theorem eocd_scan_range_witness :
    computeEOCD eocdWitnessByte 22 = some 0 ∧
    eocdSig eocdWitnessByte 0 = 0x06054b50 ∧
    (22 : Int) - 65535 < 0 ∧ (0 : Int) ≤ 22 - 22 := by
  have hc : computeEOCD eocdWitnessByte 22 = some 0 := by decide
  have h := (eocd_scan_range eocdWitnessByte 22).2.2 0 hc
  exact ⟨hc, h.2.2.1, h.1, h.2.1⟩

/-- C6 counterexample: on a 22-byte source with no signature anywhere, the
scan issues `get` calls at negative offsets (here −1), refuting the claim
that no `get` is ever issued below zero. -/
theorem eocd_scan_probes_below_zero :
    (-1 : Int) ∈ eocdProbed (fun _ => 0) 22 ∧ (-1 : Int) < 0 := by
  have hnomatch : ∀ l : List Int, eocdProbedAux (fun _ => 0) l = l := by
    intro l
    induction l with
    | nil => rfl
    | cons x rest ih =>
      unfold eocdProbedAux
      have h0 : eocdSig (fun _ => 0) x = 0 := by
        simp [eocdSig]
      rw [if_neg (by rw [h0]; decide), ih]
  refine ⟨?_, by decide⟩
  unfold eocdProbed eocdCandidates
  rw [hnomatch]
  exact (mem_intRangeDesc (-1) 0 65513).mpr (by omega)

theorem isoDirLoop_eq_foldl (data : List Nat) (kind : String) (rr : Int) :
    ∀ (fuel : Nat) (i : Nat) (limit : Option Nat) (acc : List (List Nat × Nat)),
    isoDirLoop data kind rr fuel i limit acc =
      (isoDirInserts data kind rr fuel i limit).foldl (fun m p => jsSet m p.1 p.2) acc := by
  intro fuel
  induction fuel with
  | zero => intro i limit acc; rfl
  | succ n ih =>
    intro i limit acc
    simp only [isoDirLoop, isoDirInserts]
    by_cases hguard : underLimit i limit = true
    · rw [if_pos hguard, if_pos hguard]
      by_cases hlen : byteAt data i = 0
      · rw [if_pos hlen, if_pos hlen, ih]
      · rw [if_neg hlen, if_neg hlen]
        by_cases hname : fileName data kind i rr ≠ [0] ∧ fileName data kind i rr ≠ [1] ∧
            (hasRockRidge rr = false ∨
              ¬ (recSUEntries data i rr).any (fun e => e = .RE))
        · rw [if_pos hname, if_pos hname, ih]
          rfl
        · rw [if_neg hname, if_neg hname, ih]
    · rw [if_neg hguard, if_neg hguard]
      rfl

/-- C4 (amended): the directory map produced by the extent walk binds a
fileName to the record offset of the *last* insertion with that name — the
walker uses `Map.set`, which replaces the binding of an existing key — so
among child records mapping to the same fileName the last one in extent
order wins. -/
theorem iso_directory_duplicate_keeps_last (data : List Nat) (kind : String) (i : Nat)
    (rr : Int) (name : List Nat) (hdir : recFileFlags data i &&& 2 ≠ 0) :
    jsGet (isoDirectory data kind i rr) name =
      match (isoDirInserts data kind rr (recDataLength data i + 1) (recLba data i)
          (some (recLba data i + recDataLength data i))).reverse.find?
          (fun p => decide (p.1 = name)) with
      | some p => some p.2
      | none => none := by
  unfold isoDirectory
  rw [if_pos (by simpa using hdir), isoDirLoop_eq_foldl, jsGet_foldl_jsSet]
  rcases hX : (isoDirInserts data kind rr (recDataLength data i + 1) (recLba data i)
      (some (recLba data i + recDataLength data i))).reverse.find?
      (fun p => decide (p.1 = name)) with _ | p
  · rw [hX]
    rfl
  · rw [hX]

theorem iso_directory_duplicate_keeps_last_witness :
    recFileFlags dupNameIsoBytes 68 &&& 2 ≠ 0 ∧
    jsGet (isoDirectory dupNameIsoBytes "ISO9660" 68 (-1)) [97] = some 34 := by
  have h := iso_directory_duplicate_keeps_last dupNameIsoBytes "ISO9660" 68 (-1) [97]
    (by decide)
  refine ⟨by decide, ?_⟩
  rw [h]
  decide

/-- C4 counterexample: the two records at offsets 0 and 34 of the concrete
extent share the fileName "a", and the walker's map binds that name to the
second record (offset 34), not the first (offset 0) as the claim states. -/
theorem iso_directory_duplicate_first_refuted :
    fileName dupNameIsoBytes "ISO9660" 0 (-1) = [97] ∧
    fileName dupNameIsoBytes "ISO9660" 34 (-1) = [97] ∧
    jsGet (isoDirectory dupNameIsoBytes "ISO9660" 68 (-1)) [97] = some 34 ∧
    jsGet (isoDirectory dupNameIsoBytes "ISO9660" 68 (-1)) [97] ≠ some 0 := by
  decide

theorem parseDir_length_lt (k : List Nat) (h : parseBase k ≠ []) :
    (parseDir k).length < k.length := by
  have hsplit := congrArg List.length
    (List.takeWhile_append_dropWhile (fun c : Nat => decide (c ≠ 47)) k.reverse)
  rw [List.length_append, List.length_reverse] at hsplit
  have hbase : (k.reverse.takeWhile (fun c : Nat => decide (c ≠ 47))).length ≠ 0 := by
    intro hz
    apply h
    unfold parseBase
    rw [List.length_eq_zero.mp hz]
    rfl
  unfold parseDir
  rcases hdrop : k.reverse.dropWhile (fun c : Nat => decide (c ≠ 47)) with _ | ⟨c, tail⟩
  · rw [hdrop] at hsplit
    simp only [List.length_nil] at hsplit
    show ([] : List Nat).length < k.length
    simp only [List.length_nil]
    omega
  · rw [hdrop] at hsplit
    simp only [List.length_cons] at hsplit
    show (if tail = [] then [47] else tail.reverse).length < k.length
    by_cases htail : tail = []
    · subst htail
      simp only [List.length_cons, List.length_nil] at hsplit
      simp
      omega
    · rw [if_neg htail]
      simp only [List.length_reverse]
      omega

theorem mem_jsAdd_self {α : Type} [DecidableEq α] (s : List α) (a : α) : a ∈ jsAdd s a := by
  unfold jsAdd
  by_cases h : a ∈ s
  · rw [if_pos h]; exact h
  · rw [if_neg h]; exact List.mem_append_right s (List.mem_singleton.mpr rfl)

theorem mem_jsAdd_mono {α : Type} [DecidableEq α] (s : List α) (a x : α) (h : x ∈ s) :
    x ∈ jsAdd s a := by
  unfold jsAdd
  by_cases hm : a ∈ s
  · rw [if_pos hm]; exact h
  · rw [if_neg hm]; exact List.mem_append_left _ h

theorem dirHas_dirAdd_self (ds : List (List Nat × List (List Nat))) (d b : List Nat) :
    dirHas (dirAdd ds d b) d b :=
  ⟨jsAdd ((jsGet ds d).getD []) b, jsGet_jsSet_self ds d _, mem_jsAdd_self _ b⟩

theorem dirHas_dirAdd_mono (ds : List (List Nat × List (List Nat))) (d b d' b' : List Nat)
    (h : dirHas ds d b) : dirHas (dirAdd ds d' b') d b := by
  obtain ⟨s, hget, hmem⟩ := h
  by_cases hd : d' = d
  · subst hd
    refine ⟨jsAdd ((jsGet ds d').getD []) b', jsGet_jsSet_self ds d' _, ?_⟩
    rw [hget]
    exact mem_jsAdd_mono s b' b hmem
  · exact ⟨s, by rw [dirAdd, jsGet_jsSet_other ds d' d _ hd]; exact hget, hmem⟩

theorem hasKey_of_dirHas (ds : List (List Nat × List (List Nat))) (d b : List Nat)
    (h : dirHas ds d b) : hasKey ds d = true := by
  obtain ⟨s, hget, _⟩ := h
  unfold hasKey
  rw [hget]
  rfl

theorem hasKey_dirAdd_iff (ds : List (List Nat × List (List Nat))) (d b x : List Nat) :
    hasKey (dirAdd ds d b) x = true ↔ hasKey ds x = true ∨ x = d :=
  hasKey_jsSet ds d x _

theorem dirsPass1_step_mono (keys : List (List Nat)) :
    ∀ (ds : List (List Nat × List (List Nat))) (d b : List Nat), dirHas ds d b →
    dirHas (keys.foldl (fun ds k => dirAdd ds (parseDir k) (parseBase k)) ds) d b := by
  induction keys with
  | nil => intro ds d b h; exact h
  | cons k0 rest ih =>
    intro ds d b h
    exact ih _ d b (dirHas_dirAdd_mono ds d b _ _ h)

theorem dirsPass1_links : ∀ (keys : List (List Nat)) (ds : List (List Nat × List (List Nat)))
    (k : List Nat), k ∈ keys →
    dirHas (keys.foldl (fun ds k => dirAdd ds (parseDir k) (parseBase k)) ds)
      (parseDir k) (parseBase k) := by
  intro keys
  induction keys with
  | nil => intro ds k h; exact absurd h (List.not_mem_nil k)
  | cons k0 rest ih =>
    intro ds k h
    rcases List.mem_cons.mp h with rfl | hrest
    · exact dirsPass1_step_mono rest _ _ _ (dirHas_dirAdd_self ds _ _)
    · exact ih _ k hrest

theorem dirsPass2_dirHas_mono : ∀ (fuel : Nat) (ds : List (List Nat × List (List Nat)))
    (tv : List (List Nat)) (d b : List Nat), dirHas ds d b →
    dirHas (dirsPass2 fuel ds tv) d b := by
  intro fuel
  induction fuel with
  | zero => intro ds tv d b h; exact h
  | succ n ih =>
    intro ds tv d b h
    rcases tv with _ | ⟨k0, rest⟩
    · exact h
    · unfold dirsPass2
      by_cases hb : parseBase k0 = []
      · rw [if_pos hb]
        exact ih ds rest d b h
      · rw [if_neg hb]
        exact ih _ _ d b (dirHas_dirAdd_mono ds d b _ _ h)

theorem tvMeasure_cons (k : List Nat) (rest : List (List Nat)) :
    tvMeasure (k :: rest) = k.length + 1 + tvMeasure rest := by
  unfold tvMeasure
  rw [List.map_cons, List.sum_cons]

theorem tvMeasure_append_single (rest : List (List Nat)) (d : List Nat) :
    tvMeasure (rest ++ [d]) = tvMeasure rest + (d.length + 1) := by
  unfold tvMeasure
  simp [List.map_append, List.sum_append]

theorem dirsPass2_closure : ∀ (fuel : Nat) (ds : List (List Nat × List (List Nat)))
    (tv : List (List Nat)),
    tvMeasure tv ≤ fuel →
    (∀ k, hasKey ds k = true → parseBase k ≠ [] →
      dirHas ds (parseDir k) (parseBase k) ∨ k ∈ tv) →
    ∀ k, hasKey (dirsPass2 fuel ds tv) k = true → parseBase k ≠ [] →
      dirHas (dirsPass2 fuel ds tv) (parseDir k) (parseBase k) := by
  intro fuel
  induction fuel with
  | zero =>
    intro ds tv hm hinv k hk hb
    rcases tv with _ | ⟨k0, rest⟩
    · rcases hinv k hk hb with hd | habs
      · exact hd
      · exact absurd habs (List.not_mem_nil k)
    · rw [tvMeasure_cons] at hm
      omega
  | succ n ih =>
    intro ds tv hm hinv k hk hb
    rcases tv with _ | ⟨k0, rest⟩
    · rcases hinv k hk hb with hd | habs
      · exact hd
      · exact absurd habs (List.not_mem_nil k)
    · rw [tvMeasure_cons] at hm
      by_cases hb0 : parseBase k0 = []
      · unfold dirsPass2 at hk ⊢
        rw [if_pos hb0] at hk ⊢
        refine ih ds rest (by omega) ?_ k hk hb
        intro k2 hk2 hb2
        rcases hinv k2 hk2 hb2 with hd | hmem
        · exact Or.inl hd
        · rcases List.mem_cons.mp hmem with rfl | hr
          · exact absurd hb0 hb2
          · exact Or.inr hr
      · unfold dirsPass2 at hk ⊢
        rw [if_neg hb0] at hk ⊢
        set d0 := parseDir k0 with hd0
        set b0 := parseBase k0 with hb0def
        have hmeas : tvMeasure (if hasKey ds d0 then rest else rest ++ [d0]) ≤ n := by
          by_cases hfresh : hasKey ds d0 = true
          · rw [if_pos hfresh]
            omega
          · rw [if_neg hfresh]
            rw [tvMeasure_append_single]
            have hlt := parseDir_length_lt k0 hb0
            rw [← hd0] at hlt
            omega
        refine ih _ _ hmeas ?_ k hk hb
        intro k2 hk2 hb2
        rcases (hasKey_dirAdd_iff ds d0 b0 k2).mp hk2 with hk2' | rfl
        · rcases hinv k2 hk2' hb2 with hd | hmem
          · exact Or.inl (dirHas_dirAdd_mono ds _ _ _ _ hd)
          · rcases List.mem_cons.mp hmem with rfl | hr
            · exact Or.inl (dirHas_dirAdd_self ds d0 b0)
            · refine Or.inr ?_
              by_cases hfresh : hasKey ds d0 = true
              · rw [if_pos hfresh]; exact hr
              · rw [if_neg hfresh]; exact List.mem_append_left _ hr
        · by_cases hfresh : hasKey ds d0 = true
          · rcases hinv d0 hfresh hb2 with hd | hmem
            · exact Or.inl (dirHas_dirAdd_mono ds _ _ _ _ hd)
            · rcases List.mem_cons.mp hmem with heq | hr
              · exfalso
                have hlt := parseDir_length_lt k0 hb0
                rw [← hd0] at hlt
                rw [heq] at hlt
                exact lt_irrefl _ hlt
              · refine Or.inr ?_
                rw [if_pos hfresh]
                exact hr
          · refine Or.inr ?_
            rw [if_neg hfresh]
            exact List.mem_append_right _ (List.mem_singleton.mpr rfl)

theorem hasKey_iff_mem_mapKeys {V : Type} (m : List (List Nat × V)) (k : List Nat) :
    hasKey m k = true ↔ k ∈ mapKeys m := by
  induction m with
  | nil => simp [hasKey, jsGet, mapKeys]
  | cons p rest ih =>
    unfold hasKey jsGet mapKeys
    by_cases hp : p.1 = k
    · rw [if_pos hp]
      simp [hp.symm ▸ List.mem_cons_self p.1 (rest.map Prod.fst), hp]
    · rw [if_neg hp]
      rw [List.map_cons, List.mem_cons]
      constructor
      · intro h
        exact Or.inr ((ih.mp) h)
      · intro h
        rcases h with h | h
        · exact absurd h.symm hp
        · exact ih.mpr h

theorem hasKey_foldl_jsSet_mono {V : Type} (es : List V) (key : V → List Nat) :
    ∀ (m : List (List Nat × V)) (k : List Nat), hasKey m k = true →
    hasKey (es.foldl (fun m e => jsSet m (key e) e) m) k = true := by
  induction es with
  | nil => intro m k h; exact h
  | cons e rest ih =>
    intro m k h
    exact ih _ k ((hasKey_jsSet m (key e) k e).mpr (Or.inl h))

theorem hasKey_foldl_jsSet_of_mem {V : Type} (key : V → List Nat) :
    ∀ (es : List V) (m : List (List Nat × V)) (e : V), e ∈ es →
    hasKey (es.foldl (fun m en => jsSet m (key en) en) m) (key e) = true := by
  intro es
  induction es with
  | nil => intro m e h; exact absurd h (List.not_mem_nil e)
  | cons e0 rest ih =>
    intro m e h
    simp only [List.foldl_cons]
    rcases List.mem_cons.mp h with rfl | hr
    · exact hasKey_foldl_jsSet_mono rest key _ _
        ((hasKey_jsSet m (key e) (key e) e).mpr (Or.inr rfl))
    · exact ih _ e hr

theorem hasKey_zipFilesMap_of_mem (es : List ZipEntry) (e : ZipEntry) (he : e ∈ es) :
    hasKey (zipFilesMap es) (zipKey e) = true :=
  hasKey_foldl_jsSet_of_mem zipKey es [] e he

theorem zipDirectories_eq (keys : List (List Nat)) :
    zipDirectories keys = dirsPass2 (tvMeasure (mapKeys (dirsPass1 keys)))
      (dirsPass1 keys) (mapKeys (dirsPass1 keys)) := rfl

theorem zipDirectories_closure (keys : List (List Nat)) :
    ∀ k, hasKey (zipDirectories keys) k = true → parseBase k ≠ [] →
      dirHas (zipDirectories keys) (parseDir k) (parseBase k) := by
  rw [zipDirectories_eq]
  exact dirsPass2_closure _ _ _ (le_refl _)
    (fun k hk _ => Or.inr ((hasKey_iff_mem_mapKeys _ k).mp hk))

theorem zipDirectories_first_link (keys : List (List Nat)) (k : List Nat) (hk : k ∈ keys) :
    dirHas (zipDirectories keys) (parseDir k) (parseBase k) := by
  rw [zipDirectories_eq]
  exact dirsPass2_dirHas_mono _ _ _ _ _ (dirsPass1_links keys [] k hk)

theorem chainFuel_dirHas (D : List (List Nat × List (List Nat)))
    (hP : ∀ k, hasKey D k = true → parseBase k ≠ [] →
      dirHas D (parseDir k) (parseBase k)) :
    ∀ (fuel : Nat) (d : List Nat), hasKey D d = true →
      ∀ db ∈ chainFuel fuel d, dirHas D db.1 db.2 := by
  intro fuel
  induction fuel with
  | zero => intro d _ db hdb; exact absurd hdb (List.not_mem_nil db)
  | succ n ih =>
    intro d hd db hdb
    unfold chainFuel at hdb
    by_cases hb : parseBase d = []
    · rw [if_pos hb] at hdb
      exact absurd hdb (List.not_mem_nil db)
    · rw [if_neg hb] at hdb
      rcases List.mem_cons.mp hdb with rfl | htail
      · exact hP d hd hb
      · exact ih (parseDir d) (hasKey_of_dirHas D _ _ (hP d hd hb)) db htail

theorem wfKeyFuel_root (D : List (List Nat × List (List Nat)))
    (hP : ∀ k, hasKey D k = true → parseBase k ≠ [] →
      dirHas D (parseDir k) (parseBase k)) :
    ∀ (fuel : Nat) (d : List Nat), wfKeyFuel fuel d = true → hasKey D d = true →
      hasKey D [47] = true := by
  intro fuel
  induction fuel with
  | zero => intro d h; exact absurd h (by simp [wfKeyFuel])
  | succ n ih =>
    intro d hwf hd
    unfold wfKeyFuel at hwf
    rcases Bool.or_eq_true_iff.mp hwf with hroot | hstep
    · have : d = [47] := by simpa using hroot
      exact this ▸ hd
    · obtain ⟨hb, hwf'⟩ := Bool.and_eq_true_iff.mp hstep
      have hbne : parseBase d ≠ [] := of_decide_eq_true hb
      exact ih (parseDir d) hwf' (hasKey_of_dirHas D _ _ (hP d hd hbne))

/-- C5 (amended): for every file key of a mounted ZIP file system, every
strict prefix directory along its parse chain is a key of the synthesized
directory index with the child basename in its parent's set; and the root
`/` is a key whenever the archive holds an entry whose key parses down to
the root with nonempty basenames (in particular any entry without empty
path components). An archive with no entries synthesizes an empty index, so
`/` is then absent (see the counterexample). -/
theorem zip_directory_index_closure (es : List ZipEntry) (k : List Nat) (e : ZipEntry) :
    (k ∈ mapKeys (zipFilesMap es) → ∀ db ∈ ancestorChain k, dirHas (zipDirs es) db.1 db.2) ∧
    (e ∈ es → wfKey (zipKey e) = true → hasKey (zipDirs es) [47] = true) := by
  constructor
  · intro hk db hdb
    unfold ancestorChain at hdb
    rcases hn : k.length with _ | n
    · rw [hn] at hdb
      exact absurd hdb (List.not_mem_nil db)
    · rw [hn] at hdb
      unfold chainFuel at hdb
      by_cases hb : parseBase k = []
      · rw [if_pos hb] at hdb
        exact absurd hdb (List.not_mem_nil db)
      · rw [if_neg hb] at hdb
        have hlink : dirHas (zipDirs es) (parseDir k) (parseBase k) :=
          zipDirectories_first_link (mapKeys (zipFilesMap es)) k hk
        rcases List.mem_cons.mp hdb with rfl | htail
        · exact hlink
        · exact chainFuel_dirHas (zipDirs es)
            (zipDirectories_closure (mapKeys (zipFilesMap es))) n (parseDir k)
            (hasKey_of_dirHas _ _ _ hlink) db htail
  · intro he hwf
    have hkmem : zipKey e ∈ mapKeys (zipFilesMap es) :=
      (hasKey_iff_mem_mapKeys _ _).mp (hasKey_zipFilesMap_of_mem es e he)
    unfold wfKey at hwf
    rcases hn : (zipKey e).length with _ | n
    · rw [hn] at hwf
      exact absurd hwf (by simp [wfKeyFuel])
    · rw [hn] at hwf
      unfold wfKeyFuel at hwf
      rcases Bool.or_eq_true_iff.mp hwf with hroot | hstep
      · have hkey : zipKey e = [47] := by simpa using hroot
        have hlink := zipDirectories_first_link (mapKeys (zipFilesMap es)) (zipKey e) hkmem
        rw [hkey] at hlink
        have hpd : parseDir [47] = [47] := by decide
        rw [hpd] at hlink
        exact hasKey_of_dirHas _ _ _ hlink
      · obtain ⟨hb, hwf2⟩ := Bool.and_eq_true_iff.mp hstep
        have hlink := zipDirectories_first_link (mapKeys (zipFilesMap es)) (zipKey e) hkmem
        exact wfKeyFuel_root (zipDirs es)
          (zipDirectories_closure (mapKeys (zipFilesMap es))) n (parseDir (zipKey e))
          hwf2 (hasKey_of_dirHas _ _ _ hlink)

theorem zip_directory_index_closure_witness :
    dirHas (zipDirs [⟨str "nested/omg.txt", 0, 3, [1, 2, 3]⟩])
      (str "/nested") (str "omg.txt") ∧
    dirHas (zipDirs [⟨str "nested/omg.txt", 0, 3, [1, 2, 3]⟩]) [47] (str "nested") ∧
    hasKey (zipDirs [⟨str "nested/omg.txt", 0, 3, [1, 2, 3]⟩]) [47] = true := by
  have h := zip_directory_index_closure [⟨str "nested/omg.txt", 0, 3, [1, 2, 3]⟩]
    (str "/nested/omg.txt") ⟨str "nested/omg.txt", 0, 3, [1, 2, 3]⟩
  exact ⟨h.1 (by decide) (str "/nested", str "omg.txt") (by decide),
    h.1 (by decide) ([47], str "nested") (by decide),
    h.2 (by decide) (by decide)⟩

/-- C5 counterexample: mounting an archive with no entries synthesizes an
empty directory index, so `/` is not present and `stat('/')` fails with
ENOENT — refuting the claim that `/` is always a key of the index. -/
theorem zip_empty_archive_root_missing :
    zipDirs ([] : List ZipEntry) = [] ∧
    hasKey (zipDirs ([] : List ZipEntry)) [47] = false ∧
    zipStatSync [] [47] = .error .ENOENT := by
  decide

theorem map_jsToUpper_congr (a b : List Nat) (h : a.map jsToLower = b.map jsToLower) :
    a.map jsToUpper = b.map jsToUpper := by
  induction a generalizing b with
  | nil =>
    cases b with
    | nil => rfl
    | cons c cs => simp at h
  | cons c cs ih =>
    cases b with
    | nil => simp at h
    | cons d ds =>
      simp only [List.map_cons, List.cons.injEq] at h ⊢
      exact ⟨jsToUpper_congr_of_lower c d h.1, ih ds h.2⟩

theorem eq_slash_of_jsToLower (c : Nat) (h : jsToLower c = 47) : c = 47 := by
  unfold jsToLower at h
  split at h <;> omega

theorem foldComponent_congr (cf : Option CaseFold) (hcf : cf.isSome = true)
    (a b : List Nat) (h : a.map jsToLower = b.map jsToLower) :
    foldComponent cf a = foldComponent cf b := by
  rcases cf with _ | c
  · simp at hcf
  · rcases c with _ | _
    · exact map_jsToUpper_congr a b h
    · exact h

theorem splitOnSlash_ne_nil (p : List Nat) : splitOnSlash p ≠ [] := by
  cases p with
  | nil => simp [splitOnSlash]
  | cons c rest =>
    unfold splitOnSlash
    by_cases hc : c = 47
    · rw [if_pos hc]
      simp
    · rw [if_neg hc]
      rcases h : splitOnSlash rest with _ | ⟨s, ss⟩ <;> simp

theorem splitOnSlash_congr (p q : List Nat) (h : p.map jsToLower = q.map jsToLower) :
    List.Forall₂ (fun a b => a.map jsToLower = b.map jsToLower)
      (splitOnSlash p) (splitOnSlash q) := by
  induction p generalizing q with
  | nil =>
    cases q with
    | nil => exact List.Forall₂.cons rfl List.Forall₂.nil
    | cons d ds => simp at h
  | cons c cs ih =>
    cases q with
    | nil => simp at h
    | cons d ds =>
      simp only [List.map_cons, List.cons.injEq] at h
      obtain ⟨hcd, hrest⟩ := h
      have hslash : c = 47 ↔ d = 47 := by
        constructor
        · intro hc
          exact eq_slash_of_jsToLower d (by rw [← hcd, hc]; rfl)
        · intro hd
          exact eq_slash_of_jsToLower c (by rw [hcd, hd]; rfl)
      unfold splitOnSlash
      by_cases hc : c = 47
      · rw [if_pos hc, if_pos (hslash.mp hc)]
        exact List.Forall₂.cons rfl (ih ds hrest)
      · rw [if_neg hc, if_neg (fun hd => hc (hslash.mpr hd))]
        have hih := ih ds hrest
        rcases hsp : splitOnSlash cs with _ | ⟨s, ss⟩
        · exact absurd hsp (splitOnSlash_ne_nil cs)
        · rcases hsq : splitOnSlash ds with _ | ⟨t, ts⟩
          · exact absurd hsq (splitOnSlash_ne_nil ds)
          · rw [hsp, hsq] at hih
            rcases List.forall₂_cons.mp hih with ⟨hst, hsts⟩
            exact List.Forall₂.cons
              (by simp only [List.map_cons, hcd, hst]) hsts

theorem isoResolveGo_congr (data : List Nat) (kind : String) (rr : Int)
    (cf : Option CaseFold) (hcf : cf.isSome = true) :
    ∀ (parts1 parts2 : List (List Nat)),
    List.Forall₂ (fun a b => a.map jsToLower = b.map jsToLower) parts1 parts2 →
    ∀ cur, isoResolveGo data kind rr cf parts1 cur = isoResolveGo data kind rr cf parts2 cur := by
  intro parts1 parts2 hrel
  induction hrel with
  | nil => intro cur; rfl
  | cons hab hrest ih =>
    intro cur
    unfold isoResolveGo
    by_cases hd : recIsDirectory data cur rr = true
    · rw [if_pos hd, if_pos hd]
      rw [foldComponent_congr cf hcf _ _ hab]
      rcases jsGet (isoDirectory data kind cur rr) (foldComponent cf _) with _ | next
      · rfl
      · exact ih next
    · rw [if_neg hd, if_neg hd]

theorem eq_root_iff_of_lower (p q : List Nat) (h : p.map jsToLower = q.map jsToLower) :
    p = [47] ↔ q = [47] := by
  constructor
  · intro hp
    subst hp
    cases q with
    | nil => simp at h
    | cons d ds =>
      cases ds with
      | nil =>
        simp only [List.map_cons, List.map_nil, List.cons.injEq] at h
        rw [eq_slash_of_jsToLower d h.1.symm]
      | cons d2 ds2 => simp at h
  · intro hq
    subst hq
    cases p with
    | nil => simp at h
    | cons c cs =>
      cases cs with
      | nil =>
        simp only [List.map_cons, List.map_nil, List.cons.injEq] at h
        rw [eq_slash_of_jsToLower c h.1]
      | cons c2 cs2 => simp at h

/-- C1: with a case fold configured (modelled from the spec, since the hook
lives in the VFS layer outside these sources), path resolution and reading
are invariant under the letter case of the supplied path: any two paths
that agree up to ASCII case resolve to the same record and read the same
bytes — in particular `/FOO/BAR` and `/foo/bar` resolve identically. -/
theorem iso_caseFold_read_invariant (data : List Nat) (kind : String) (rr : Int)
    (cf : Option CaseFold) (rootOff : Nat) (p q : List Nat) (o e : Nat)
    (hcf : cf.isSome = true)
    (hvariant : p.map jsToLower = q.map jsToLower) :
    isoResolve data kind rr cf rootOff p = isoResolve data kind rr cf rootOff q ∧
    isoReadSync data kind rr cf rootOff p o e = isoReadSync data kind rr cf rootOff q o e := by
  have hres : isoResolve data kind rr cf rootOff p = isoResolve data kind rr cf rootOff q := by
    unfold isoResolve
    by_cases hp : p = [47]
    · rw [if_pos hp, if_pos ((eq_root_iff_of_lower p q hvariant).mp hp)]
    · rw [if_neg hp, if_neg (fun hq => hp ((eq_root_iff_of_lower p q hvariant).mpr hq))]
      unfold splitPath
      have hsp := splitOnSlash_congr p q hvariant
      rcases hsp1 : splitOnSlash p with _ | ⟨s, ss⟩
      · exact absurd hsp1 (splitOnSlash_ne_nil p)
      · rcases hsp2 : splitOnSlash q with _ | ⟨t, ts⟩
        · exact absurd hsp2 (splitOnSlash_ne_nil q)
        · rw [hsp1, hsp2] at hsp
          rcases List.forall₂_cons.mp hsp with ⟨_, hsts⟩
          simp only [List.drop_one, List.tail_cons]
          exact isoResolveGo_congr data kind rr cf hcf ss ts hsts rootOff
  refine ⟨hres, ?_⟩
  unfold isoReadSync
  rw [hres]

theorem iso_caseFold_read_invariant_witness :
    (str "/FOO/BAR").map jsToLower = (str "/foo/bar").map jsToLower ∧
    isoResolve [] "ISO9660" (-1) (some .lower) 0 (str "/FOO/BAR") =
      isoResolve [] "ISO9660" (-1) (some .lower) 0 (str "/foo/bar") ∧
    isoReadSync [] "ISO9660" (-1) (some .lower) 0 (str "/FOO/BAR") 0 4 =
      isoReadSync [] "ISO9660" (-1) (some .lower) 0 (str "/foo/bar") 0 4 := by
  have h := iso_caseFold_read_invariant [] "ISO9660" (-1) (some .lower) 0
    (str "/FOO/BAR") (str "/foo/bar") 0 4 (by decide) (by decide)
  exact ⟨by decide, h.1, h.2⟩
